import Mathlib

/-!
Shallow embedding of the RSA core of the repository
(src/lib/rsa/src/math.rs and src/lib/rsa/src/cryptosystem.rs).

Rust BigInt values are modelled as Lean Int.  Rust division and remainder
on BigInt truncate toward zero, modelled by Int.tdiv and Int.tmod.
A Rust panic (division by zero inside gcd, BigInt::modpow with a negative
exponent or a zero modulus) and a non-terminating loop are modelled by
Option: none means the call does not return normally.

Loops are written as structurally recursive functions over an explicit
step budget.  Each wrapper passes a budget that strictly dominates the
number of iterations the Rust loop can perform (the absolute value of the
running remainder decreases strictly at every iteration), so the
budget-exhausted branch is unreachable from the wrappers, except where the
Rust loop genuinely diverges (factor_power_2 on 0), where running out of
budget faithfully reports the divergence as none.
-/

namespace math

/-- Loop of factor_power_2 (math.rs:30): while n % 2 == 0 { n /= 2; k += 1 }.
A budget of n.natAbs dominates the iteration count for n ≠ 0; for n = 0 the
Rust loop never exits and every budget is exhausted (none). -/
def fp2_steps : Nat → Int → Nat → Option (Int × Nat)
  | 0, n, k => if n.tmod 2 = 0 then none else some (n, k)
  | fuel + 1, n, k =>
    if n.tmod 2 = 0 then fp2_steps fuel (n.tdiv 2) (k + 1) else some (n, k)

/-- math.rs factor_power_2: returns (m, k) with n = 2^k * m, m odd;
diverges (none) on n = 0. -/
def factor_power_2 (n : Int) : Option (Int × Nat) :=
  fp2_steps n.natAbs n 0

/-- Loop of gcd (math.rs:79).  The state (r0, r1) starts at (max a b, min a b);
the function first takes r2 = r0 % r1, which in Rust panics with a division
by zero when r1 = 0 (modelled by none); while r2 != 0 the state shifts to
(r1, r2). -/
def gcd_steps : Nat → Int → Int → Option Int
  | 0, _, _ => none
  | fuel + 1, r0, r1 =>
    if r1 = 0 then none
    else
      let r2 := r0.tmod r1
      if r2 = 0 then some r1 else gcd_steps fuel r1 r2

/-- math.rs gcd: Euclidean algorithm after swapping so the larger value
leads.  Panics (none) when the smaller argument is 0. -/
def gcd (a b : Int) : Option Int :=
  gcd_steps ((min a b).natAbs + 1) (max a b) (min a b)

/-- Loop of multiplicative_inverse (math.rs:136): while r1 != 0, with
q = r0 / r1 (truncating), step (r0, r1, t0, t1) to
(r1, r0 - q*r1, t1, t0 - q*t1); on exit return t0. -/
def mi_steps : Nat → Int → Int → Int → Int → Int
  | 0, _, _, t0, _ => t0
  | fuel + 1, r0, r1, t0, t1 =>
    if r1 = 0 then t0
    else
      let q := r0.tdiv r1
      mi_steps fuel r1 (r0 - q * r1) t1 (t0 - q * t1)

/-- math.rs multiplicative_inverse: extended Euclid on (max a b, min a b)
tracking one Bezout coefficient; if the final t0 is negative the original
second argument b is added once.  Total: the loop always terminates, and
the budget (min a b).natAbs + 1 dominates its iteration count. -/
def multiplicative_inverse (a b : Int) : Int :=
  let t0 := mi_steps ((min a b).natAbs + 1) (max a b) (min a b) 0 1
  if t0 < 0 then t0 + b else t0

/-- num_bigint BigInt::modpow: panics (none) on a negative exponent or a
zero modulus; for a positive modulus it returns the least nonnegative
residue of base^exponent, which Int.emod matches.  (Negative moduli never
occur in this code base: every modulus is a primality candidate > 2 or the
positive RSA modulus.) -/
def modpow (base exponent modulus : Int) : Option Int :=
  if exponent < 0 ∨ modulus = 0 then none
  else some ((base ^ exponent.toNat) % modulus)

/-- Loop of miller_test (math.rs:207): for counter in 0..s, recompute
x = base^(2^counter * t) mod n from scratch and return true as soon as
x = n - 1; the list argument is the remaining counter values. -/
def miller_loop (b : Nat) (t n : Int) : List Nat → Option Bool
  | [] => some false
  | c :: cs =>
    match modpow (b : Int) (2 ^ c * t) n with
    | none => none
    | some x => if x = n - 1 then some true else miller_loop b t n cs

/-- math.rs miller_test: factor n - 1 = 2^s * t, compute x = b^t mod n,
succeed immediately if x = 1 or x = n - 1, otherwise run the counter loop
over 0, 1, ..., s - 1. -/
def miller_test (n : Int) (b : Nat) : Option Bool :=
  match factor_power_2 (n - 1) with
  | none => none
  | some (t, s) =>
    match modpow (b : Int) t n with
    | none => none
    | some x =>
      if x = 1 ∨ x = n - 1 then some true
      else miller_loop b t n (List.range s)

/-- Base loop of is_prime (math.rs:276): b runs from 2 while b < max_bases,
returning false at the first base failing miller_test.  The budget
argument dominates max_bases - b, so the budget-exhausted branch with
b < max_bases is unreachable from the wrapper; with b >= max_bases the
loop exits with true at any budget. -/
def ip_steps (p : Int) (max_bases : Nat) : Nat → Nat → Option Bool
  | 0, b => if b < max_bases then none else some true
  | fuel + 1, b =>
    if b < max_bases then
      match miller_test p b with
      | none => none
      | some false => some false
      | some true => ip_steps p max_bases fuel (b + 1)
    else some true

/-- math.rs is_prime: small-case checks, then Miller bases 2, 3, ...,
max_miller_bases - 1. -/
def is_prime (p : Int) (max_miller_bases : Nat) : Option Bool :=
  if p < 2 then some false
  else if p = 2 then some true
  else if p.tmod 2 = 0 then some false
  else ip_steps p max_miller_bases max_miller_bases 2

end math

/-- cryptosystem.rs RSAKey: immutable triple (n, e, d). -/
structure RSAKey where
  n : Int
  e : Int
  d : Int
deriving DecidableEq, Repr

/-- cryptosystem.rs encrypt: message.modpow(e, n). -/
def RSAKey.encrypt (key : RSAKey) (message : Int) : Option Int :=
  math.modpow message key.e key.n

/-- cryptosystem.rs decrypt: ciphertext.modpow(d, n). -/
def RSAKey.decrypt (key : RSAKey) (ciphertext : Int) : Option Int :=
  math.modpow ciphertext key.d key.n

/-- cryptosystem.rs sign: message.modpow(d, n). -/
def RSAKey.sign (key : RSAKey) (message : Int) : Option Int :=
  math.modpow message key.d key.n

/-- cryptosystem.rs verify: signature.modpow(e, n). -/
def RSAKey.verify (key : RSAKey) (signature : Int) : Option Int :=
  math.modpow signature key.e key.n

/-- cryptosystem.rs generate_keypair, with the random draw performed by
rsa_make_e injected as the parameter e (the spec asks for randomness to be
modelled as an injectable parameter).  rsa_make_e samples e uniformly from
the range [2, phi) and retries until gcd(e, phi) == 1, so its result is
exactly an e with 2 <= e < phi and gcd e phi = some 1; theorems about
generated keys take that loop postcondition as hypotheses on e.
generate_keypair itself performs no check whatsoever: it always builds the
key from n = p*q and d = multiplicative_inverse(e, phi). -/
def RSAKey.generate_keypair (p q e : Int) : RSAKey :=
  { n := p * q, e := e, d := math.multiplicative_inverse e ((p - 1) * (q - 1)) }

/-! ### General helper lemmas -/

lemma abs_add_eq_of_mul_nonneg {x y : Int} (h : 0 ≤ x * y) : |x + y| = |x| + |y| := by
  rcases le_or_lt 0 x with hx | hx
  · rcases le_or_lt 0 y with hy | hy
    · rw [abs_of_nonneg hx, abs_of_nonneg hy, abs_of_nonneg (by omega)]
    · have hx0 : x = 0 := by nlinarith
      subst hx0; simp
  · rcases le_or_lt 0 y with hy | hy
    · have hy0 : y = 0 := by nlinarith
      subst hy0; simp
    · rw [abs_of_nonpos (le_of_lt hx), abs_of_nonpos (le_of_lt hy),
        abs_of_nonpos (by omega : x + y ≤ 0)]
      ring

/-! ### factor_power_2 -/

lemma fp2_steps_zero (fuel k : Nat) : math.fp2_steps fuel 0 k = none := by
  induction fuel generalizing k with
  | zero => simp [math.fp2_steps]
  | succ f ih => simpa [math.fp2_steps] using ih (k + 1)

lemma fp2_steps_spec : ∀ fuel : Nat, ∀ n : Int, ∀ k : Nat, n ≠ 0 → n.natAbs ≤ fuel →
    ∃ m : Int, ∃ j : Nat,
      math.fp2_steps fuel n k = some (m, k + j) ∧ n = 2 ^ j * m ∧ ¬ (2 : Int) ∣ m := by
  intro fuel
  induction fuel with
  | zero =>
    intro n k hn habs
    exact absurd (Int.natAbs_eq_zero.mp (Nat.le_zero.mp habs)) hn
  | succ f ih =>
    intro n k hn habs
    by_cases h2 : n.tmod 2 = 0
    · have hdvd : (2 : Int) ∣ n := Int.dvd_iff_tmod_eq_zero.mpr h2
      have heq : n = 2 * n.tdiv 2 := by
        have h := Int.tdiv_add_tmod n 2
        omega
      have hn' : n.tdiv 2 ≠ 0 := by
        intro h; rw [h, mul_zero] at heq; exact hn heq
      have habs' : (n.tdiv 2).natAbs ≤ f := by
        have h1 : (n.tdiv 2).natAbs = n.natAbs / 2 := by
          rw [Int.natAbs_tdiv]; rfl
        have h2' : n.natAbs ≠ 0 := fun h => hn (Int.natAbs_eq_zero.mp h)
        omega
      obtain ⟨m, j, hrun, hfact, hodd⟩ := ih (n.tdiv 2) (k + 1) hn' habs'
      refine ⟨m, j + 1, ?_, ?_, hodd⟩
      · rw [show math.fp2_steps (f + 1) n k = math.fp2_steps f (n.tdiv 2) (k + 1) from
          by simp [math.fp2_steps, h2], hrun]
        congr 2
        omega
      · rw [heq, hfact]; ring
    · refine ⟨n, 0, by simp [math.fp2_steps, h2], by ring, ?_⟩
      intro hd
      exact h2 (Int.tmod_eq_zero_of_dvd hd)

lemma factor_power_2_spec {n : Int} (hn : n ≠ 0) :
    ∃ m j, math.factor_power_2 n = some (m, j) ∧ n = 2 ^ j * m ∧ ¬ (2 : Int) ∣ m := by
  obtain ⟨m, j, h, hf, ho⟩ := fp2_steps_spec n.natAbs n 0 hn le_rfl
  exact ⟨m, j, by simpa using h, hf, ho⟩

/-! ### gcd -/

lemma int_gcd_step {r0 r1 : Int} (h0 : 0 ≤ r0) (h1 : 0 < r1) :
    Int.gcd r1 (r0 % r1) = Int.gcd r0 r1 := by
  have hmod : r0 % r1 = ((r0.natAbs % r1.natAbs : Nat) : Int) := by
    rw [Int.ofNat_emod]
    rw [Int.natAbs_of_nonneg h0, Int.natAbs_of_nonneg (le_of_lt h1)]
  rw [Int.gcd_def, Int.gcd_def, hmod, Int.natAbs_ofNat]
  rw [Nat.gcd_comm r1.natAbs]
  exact (Nat.gcd_rec r1.natAbs r0.natAbs).symm.trans (Nat.gcd_comm _ _)

lemma gcd_steps_spec : ∀ fuel : Nat, ∀ r0 r1 : Int, 0 < r1 → r1 ≤ r0 → r1.natAbs < fuel →
    math.gcd_steps fuel r0 r1 = some ((Int.gcd r0 r1 : Nat) : Int) := by
  intro fuel
  induction fuel with
  | zero => intro r0 r1 _ _ habs; omega
  | succ f ih =>
    intro r0 r1 h1 hle habs
    have h1' : r1 ≠ 0 := ne_of_gt h1
    have h00 : (0 : Int) ≤ r0 := le_trans (le_of_lt h1) hle
    have htm : r0.tmod r1 = r0 % r1 := Int.tmod_eq_emod h00 (le_of_lt h1)
    by_cases hz : r0.tmod r1 = 0
    · have hdvd : r1 ∣ r0 := Int.dvd_of_tmod_eq_zero hz
      have hg : ((Int.gcd r0 r1 : Nat) : Int) = r1 := by
        rw [Int.gcd_def]
        rw [Nat.gcd_eq_right (Int.natAbs_dvd_natAbs.mpr hdvd)]
        exact Int.natAbs_of_nonneg (le_of_lt h1)
      simp [math.gcd_steps, h1', hz, hg]
    · have hr2nonneg : 0 ≤ r0.tmod r1 := Int.tmod_nonneg r1 h00
      have hr2pos : 0 < r0.tmod r1 := lt_of_le_of_ne hr2nonneg (Ne.symm hz)
      have hr2lt : r0.tmod r1 < r1 := Int.tmod_lt_of_pos r0 h1
      rw [show math.gcd_steps (f + 1) r0 r1 = math.gcd_steps f r1 (r0.tmod r1) from
        by simp [math.gcd_steps, h1', hz]]
      rw [ih r1 (r0.tmod r1) hr2pos (le_of_lt hr2lt) (by omega)]
      rw [htm, int_gcd_step h00 h1]

lemma gcd_correct {a b : Int} (ha : 0 < a) (hb : 0 < b) :
    math.gcd a b = some ((Int.gcd a b : Nat) : Int) := by
  unfold math.gcd
  have h1 : 0 < min a b := lt_min ha hb
  rw [gcd_steps_spec _ _ _ h1 min_le_max (by omega)]
  rcases le_total a b with h | h
  · rw [max_eq_right h, min_eq_left h, Int.gcd_comm]
  · rw [max_eq_left h, min_eq_right h]

/-! ### multiplicative_inverse -/

lemma mi_steps_spec (a b : Int) (hb : 0 < b) :
    ∀ fuel : Nat, ∀ r0 r1 t0 t1 : Int, r1.natAbs < fuel → 0 ≤ r1 → r1 ≤ r0 → 1 ≤ r0 →
    t0 * a ≡ r0 [ZMOD b] → t1 * a ≡ r1 [ZMOD b] →
    t0 * t1 ≤ 0 → |t1| * r0 + |t0| * r1 = b → |t0| ≤ b →
    (math.mi_steps fuel r0 r1 t0 t1) * a ≡ ((Int.gcd r0 r1 : Nat) : Int) [ZMOD b] ∧
      |math.mi_steps fuel r0 r1 t0 t1| ≤ b := by
  intro fuel
  induction fuel with
  | zero => intro r0 r1 t0 t1 habs _ _ _ _ _ _ _ _; omega
  | succ f ih =>
    intro r0 r1 t0 t1 habs hr1 hle hr0 hc0 hc1 hsign hid ht0b
    by_cases hz : r1 = 0
    · subst hz
      rw [show math.mi_steps (f + 1) r0 0 t0 t1 = t0 from by simp [math.mi_steps]]
      refine ⟨?_, ht0b⟩
      rwa [Int.gcd_zero_right, Int.natAbs_of_nonneg (by omega : (0:Int) ≤ r0)]
    · have hr1pos : 0 < r1 := lt_of_le_of_ne hr1 (Ne.symm hz)
      have h00 : (0 : Int) ≤ r0 := by omega
      have hq : r0.tdiv r1 = r0 / r1 := Int.tdiv_eq_ediv h00 hr1
      set q := r0.tdiv r1 with hqdef
      have hr2 : r0 - q * r1 = r0 % r1 := by
        rw [hq, Int.emod_def]; ring
      have hr2nonneg : 0 ≤ r0 - q * r1 := by rw [hr2]; exact Int.emod_nonneg r0 (ne_of_gt hr1pos)
      have hr2lt : r0 - q * r1 < r1 := by rw [hr2]; exact Int.emod_lt_of_pos r0 hr1pos
      have hqpos : 0 < q := by
        rcases le_or_lt q 0 with hq0 | hq0
        · have : q * r1 ≤ 0 := mul_nonpos_iff.mpr (Or.inr ⟨hq0, le_of_lt hr1pos⟩)
          omega
        · exact hq0
      -- the new Bezout coefficient
      have hc2 : (t0 - q * t1) * a ≡ r0 - q * r1 [ZMOD b] := by
        have := (hc1.mul_left q).sub_left (t0 * a) |>.symm
        calc (t0 - q * t1) * a = t0 * a - q * (t1 * a) := by ring
          _ ≡ r0 - q * r1 [ZMOD b] := Int.ModEq.sub hc0 (hc1.mul_left q)
      have habs2 : |t0 - q * t1| = |t0| + q * |t1| := by
        have hmul : 0 ≤ t0 * (-(q * t1)) := by nlinarith
        calc |t0 - q * t1| = |t0 + -(q * t1)| := by ring_nf
          _ = |t0| + |(-(q * t1))| := abs_add_eq_of_mul_nonneg hmul
          _ = |t0| + q * |t1| := by
              rw [abs_neg, abs_mul, abs_of_nonneg (le_of_lt hqpos)]
      have hid2 : |t0 - q * t1| * r1 + |t1| * (r0 - q * r1) = b := by
        rw [habs2]; nlinarith [hid]
      have hsign2 : t1 * (t0 - q * t1) ≤ 0 := by nlinarith [sq_nonneg t1]
      have ht1b : |t1| ≤ b := by nlinarith [abs_nonneg t0, abs_nonneg t1]
      have hstep : math.mi_steps (f + 1) r0 r1 t0 t1
          = math.mi_steps f r1 (r0 - q * r1) t1 (t0 - q * t1) := by
        simp [math.mi_steps, hz, hqdef]
      rw [hstep]
      have hres := ih r1 (r0 - q * r1) t1 (t0 - q * t1) (by omega) hr2nonneg
        (le_of_lt hr2lt) (by omega) hc1 hc2 hsign2 hid2 ht1b
      rw [hr2] at hres ⊢
      rw [int_gcd_step h00 hr1pos] at hres
      exact hres

lemma mi_good {a b : Int} (ha : 0 < a) (hab : a < b) (hg : Int.gcd a b = 1) :
    (a * math.multiplicative_inverse a b) % b = 1 ∧ 0 ≤ math.multiplicative_inverse a b := by
  have hb : 0 < b := lt_trans ha hab
  have hc0 : (0 : Int) * a ≡ b [ZMOD b] := by
    show (0 * a) % b = b % b
    simp [Int.emod_self]
  have hc1 : (1 : Int) * a ≡ a [ZMOD b] := by rw [one_mul]
  have hid : |(1 : Int)| * b + |(0 : Int)| * a = b := by simp
  obtain ⟨hcong, htb⟩ := mi_steps_spec a b hb (a.natAbs + 1) b a 0 1 (by omega)
    (le_of_lt ha) (le_of_lt hab) (by omega) hc0 hc1 (by simp) hid
    (by simpa using le_of_lt hb)
  generalize hT : math.mi_steps (a.natAbs + 1) b a 0 1 = t at hcong htb
  have hgcd : ((Int.gcd b a : Nat) : Int) = 1 := by
    rw [Int.gcd_comm, hg]; rfl
  rw [hgcd] at hcong
  have hri : math.multiplicative_inverse a b = if t < 0 then t + b else t := by
    simp only [math.multiplicative_inverse, min_eq_left (le_of_lt hab),
      max_eq_right (le_of_lt hab), hT]
  have hcong2 : a * math.multiplicative_inverse a b ≡ 1 [ZMOD b] := by
    rw [hri]
    by_cases hneg : t < 0
    · simp only [if_pos hneg]
      have e1 : a * (t + b) ≡ t * a [ZMOD b] := Int.modEq_iff_dvd.mpr ⟨-a, by ring⟩
      exact e1.trans hcong
    · simp only [if_neg hneg]
      rw [mul_comm]
      exact hcong
  constructor
  · have h1b : (1 : Int) % b = 1 := Int.emod_eq_of_lt (by omega) (by omega)
    have := hcong2
    unfold Int.ModEq at this
    rw [this, h1b]
  · rw [hri]
    rcases abs_le.mp htb with ⟨hl, hr⟩
    by_cases hneg : t < 0
    · simp only [if_pos hneg]; omega
    · simp only [if_neg hneg]; omega

/-! ### Claim theorems: arithmetic primitives -/

/-- Claim C1, counterexample: (9, 2) is a coprime pair of positive integers
(both the mathematical gcd and the repository gcd report 1), yet
multiplicative_inverse 9 2 = -2 and 9 * (-2) is congruent to 0, not 1,
modulo 2: the claimed property fails when the first argument exceeds the
second, because the final sign fixup adds b where the tracked coefficient
is an inverse modulo the larger argument. -/
theorem mi_not_inverse_at_9_2 :
    Int.gcd 9 2 = 1 ∧ math.gcd 9 2 = some 1 ∧
      math.multiplicative_inverse 9 2 = -2 ∧
      (9 * math.multiplicative_inverse 9 2) % 2 ≠ 1 := by decide

/-- Claim C1, amended: for every pair of positive integers (a, b) with
a < b and gcd(a, b) = 1, the value multiplicative_inverse(a, b) satisfies
(a * multiplicative_inverse(a, b)) mod b = 1. -/
theorem mi_correct_below_modulus (a b : Int) (ha : 0 < a) (hab : a < b)
    (hg : Int.gcd a b = 1) :
    (a * math.multiplicative_inverse a b) % b = 1 :=
  (mi_good ha hab hg).1

/-- Witness for mi_correct_below_modulus at (3, 11). -/
theorem mi_correct_below_modulus_witness :
    (3 * math.multiplicative_inverse 3 11) % 11 = 1 :=
  mi_correct_below_modulus 3 11 (by decide) (by decide) (by decide)

/-- Claim C3 (code bug): the spec says gcd(a, 0) = a for positive a, but the
code computes r0 % r1 with r1 = 0 before its loop, which panics in
num-bigint with a division by zero; evaluated at the failing input a = 5,
b = 0, the embedded gcd reports the panic (none) instead of 5. -/
theorem gcd_right_zero_panics : math.gcd 5 0 = none := by decide

/-- Claim C4, counterexample: at the non-coprime input (4, 8) (gcd is 4,
not 1) multiplicative_inverse surfaces no error of any kind: it returns
the ordinary integer 1, which is not an inverse (4 * 1 is congruent to 4,
not 1, mod 8). -/
theorem mi_noncoprime_returns_value :
    math.gcd 4 8 = some 4 ∧ math.multiplicative_inverse 4 8 = 1 ∧
      (4 * math.multiplicative_inverse 4 8) % 8 ≠ 1 := by decide

/-- Claim C4, amended: multiplicative_inverse has no failure path at all
(it returns a plain integer even when gcd(a, b) is not 1, e.g. 1 at
(4, 8)), and generate_keypair performs no validity check: for every p, q
and sampled e it unconditionally builds the key with n = p * q and
d = multiplicative_inverse(e, (p-1)(q-1)), so a failed inverse can never
abort key construction. -/
theorem mi_no_error_and_keygen_unchecked :
    (math.gcd 4 8 = some 4 ∧ math.multiplicative_inverse 4 8 = 1) ∧
      ∀ p q e : Int, RSAKey.generate_keypair p q e
        = { n := p * q, e := e, d := math.multiplicative_inverse e ((p - 1) * (q - 1)) } := by
  exact ⟨by decide, fun p q e => rfl⟩

/-- Claim C7: for every nonzero integer n, factor_power_2 terminates and
returns (m, k) with n = 2^k * m and m odd; and on n = 0 the loop runs
forever: no step budget whatsoever makes it return. -/
theorem factor_power_2_total_spec (n : Int) (hn : n ≠ 0) :
    (∃ m j, math.factor_power_2 n = some (m, j) ∧ n = 2 ^ j * m ∧ Odd m) ∧
      ∀ fuel k, math.fp2_steps fuel 0 k = none := by
  constructor
  · obtain ⟨m, j, h, hf, ho⟩ := factor_power_2_spec hn
    refine ⟨m, j, h, hf, ?_⟩
    rw [Int.odd_iff]
    omega
  · exact fun fuel k => fp2_steps_zero fuel k

/-- Witness for factor_power_2_total_spec at n = 12 = 2^2 * 3. -/
theorem factor_power_2_total_spec_witness :
    ∃ m j, math.factor_power_2 12 = some (m, j) ∧ (12 : Int) = 2 ^ j * m ∧ Odd m :=
  (factor_power_2_total_spec 12 (by decide)).1

/-- Claim C8: gcd is symmetric in its two arguments (both orders normalize
to the same (max, min) state before the Euclidean loop). -/
theorem gcd_comm_code (a b : Int) (h : ¬ (a = 0 ∧ b = 0)) :
    math.gcd a b = math.gcd b a := by
  unfold math.gcd
  rw [min_comm, max_comm]

/-- Witness for gcd_comm_code at (8, 5). -/
theorem gcd_comm_code_witness : math.gcd 8 5 = math.gcd 5 8 :=
  gcd_comm_code 8 5 (by decide)

/-- Claim C10: for every key and every input, sign coincides with decrypt
and verify coincides with encrypt: the signing pair is the encryption pair
with the roles of the exponents e and d swapped. -/
theorem sign_verify_eq_decrypt_encrypt (key : RSAKey) (x : Int) :
    key.sign x = key.decrypt x ∧ key.verify x = key.encrypt x :=
  ⟨rfl, rfl⟩

/-! ### RSA key generation and round trip -/

lemma modpow_eval {b e n : Int} (he : 0 ≤ e) (hn : n ≠ 0) :
    math.modpow b e n = some ((b ^ e.toNat) % n) := by
  unfold math.modpow
  rw [if_neg]
  push_neg
  exact ⟨by omega, hn⟩

lemma toNat_mul_of_nonneg {x y : Int} (hx : 0 ≤ x) (hy : 0 ≤ y) :
    (x * y).toNat = x.toNat * y.toNat := by
  have h : ((x * y).toNat : Int) = ((x.toNat * y.toNat : Nat) : Int) := by
    push_cast
    rw [Int.toNat_of_nonneg hx, Int.toNat_of_nonneg hy, Int.toNat_of_nonneg (mul_nonneg hx hy)]
  exact_mod_cast h

lemma int_prime_two_le {p : Int} (hp : Prime p) (hp0 : 0 < p) : 2 ≤ p := by
  have hnp : Nat.Prime p.natAbs := Int.prime_iff_natAbs_prime.mp hp
  have := hnp.two_le
  omega

lemma pow_prime_cong (p : Int) (hp : Prime p) (hp0 : 0 < p) (m : Int) (c : Nat) :
    m ^ (1 + c * (p - 1).toNat) ≡ m [ZMOD p] := by
  have h2p : 2 ≤ p := int_prime_two_le hp hp0
  obtain ⟨pn, hpn⟩ : ∃ pn : Nat, p = (pn : Int) :=
    ⟨p.toNat, (Int.toNat_of_nonneg (by omega)).symm⟩
  subst hpn
  have hnp : Nat.Prime pn := by
    have h := Int.prime_iff_natAbs_prime.mp hp
    rwa [Int.natAbs_ofNat] at h
  haveI : Fact (Nat.Prime pn) := ⟨hnp⟩
  have hsub : ((pn : Int) - 1).toNat = pn - 1 := by omega
  rw [hsub, ← ZMod.intCast_eq_intCast_iff]
  push_cast
  by_cases hz : (m : ZMod pn) = 0
  · rw [hz, zero_pow (by omega : 1 + c * (pn - 1) ≠ 0)]
  · rw [pow_add, pow_one, mul_comm c (pn - 1), pow_mul,
      ZMod.pow_card_sub_one_eq_one hz, one_pow, mul_one]

lemma rsa_core (p q : Int) (hp : Prime p) (hq : Prime q) (hp0 : 0 < p) (hq0 : 0 < q)
    (hpq : p ≠ q) (m : Int) (c : Nat) :
    m ^ (1 + c * ((p - 1).toNat * (q - 1).toNat)) ≡ m [ZMOD p * q] := by
  have hcp := pow_prime_cong p hp hp0 m (c * (q - 1).toNat)
  have hcq := pow_prime_cong q hq hq0 m (c * (p - 1).toNat)
  rw [show 1 + c * (q - 1).toNat * (p - 1).toNat
      = 1 + c * ((p - 1).toNat * (q - 1).toNat) from by ring] at hcp
  rw [show 1 + c * (p - 1).toNat * (q - 1).toNat
      = 1 + c * ((p - 1).toNat * (q - 1).toNat) from by ring] at hcq
  have hdp : p ∣ m - m ^ (1 + c * ((p - 1).toNat * (q - 1).toNat)) := hcp.dvd
  have hdq : q ∣ m - m ^ (1 + c * ((p - 1).toNat * (q - 1).toNat)) := hcq.dvd
  have hcop : IsCoprime p q := by
    rw [Int.isCoprime_iff_gcd_eq_one]
    have hp' : Nat.Prime p.natAbs := Int.prime_iff_natAbs_prime.mp hp
    have hq' : Nat.Prime q.natAbs := Int.prime_iff_natAbs_prime.mp hq
    have hne : p.natAbs ≠ q.natAbs := by omega
    exact (Nat.coprime_primes hp' hq').mpr hne
  exact Int.modEq_iff_dvd.mpr (hcop.mul_dvd hdp hdq)

/-- Claim C5: every key built by generate_keypair from distinct positive
primes p, q and a sampled e meeting the rsa_make_e loop postcondition
(2 <= e < phi, repository gcd(e, phi) = 1) satisfies the invariants
1 < e < phi(n), gcd(e, phi(n)) = 1, and e * d congruent to 1 mod phi(n),
with phi(n) = (p-1)(q-1). -/
theorem generate_keypair_invariants (p q e : Int)
    (hp : Prime p) (hq : Prime q) (hpq : p ≠ q) (hp0 : 0 < p) (hq0 : 0 < q)
    (he2 : 2 ≤ e) (helt : e < (p - 1) * (q - 1))
    (hge : math.gcd e ((p - 1) * (q - 1)) = some 1) :
    1 < (RSAKey.generate_keypair p q e).e ∧
      (RSAKey.generate_keypair p q e).e < (p - 1) * (q - 1) ∧
      Int.gcd (RSAKey.generate_keypair p q e).e ((p - 1) * (q - 1)) = 1 ∧
      ((RSAKey.generate_keypair p q e).e * (RSAKey.generate_keypair p q e).d)
        % ((p - 1) * (q - 1)) = 1 := by
  have hφpos : (0 : Int) < (p - 1) * (q - 1) := lt_trans (by omega) helt
  have he0 : (0 : Int) < e := by omega
  have hgcd : Int.gcd e ((p - 1) * (q - 1)) = 1 := by
    have h := gcd_correct he0 hφpos
    rw [hge] at h
    exact_mod_cast (Option.some.injEq _ _ ▸ h).symm
  obtain ⟨hed, _⟩ := mi_good he0 helt hgcd
  have hKe : (RSAKey.generate_keypair p q e).e = e := rfl
  have hKd : (RSAKey.generate_keypair p q e).d
      = math.multiplicative_inverse e ((p - 1) * (q - 1)) := rfl
  rw [hKe, hKd]
  exact ⟨by omega, helt, hgcd, hed⟩

/-- Witness for generate_keypair_invariants at p = 5, q = 11, e = 3. -/
theorem generate_keypair_invariants_witness :
    1 < (RSAKey.generate_keypair 5 11 3).e ∧
      (RSAKey.generate_keypair 5 11 3).e < (5 - 1) * (11 - 1) ∧
      Int.gcd (RSAKey.generate_keypair 5 11 3).e ((5 - 1) * (11 - 1)) = 1 ∧
      ((RSAKey.generate_keypair 5 11 3).e * (RSAKey.generate_keypair 5 11 3).d)
        % ((5 - 1) * (11 - 1)) = 1 :=
  generate_keypair_invariants 5 11 3 (by norm_num) (by norm_num) (by decide)
    (by decide) (by decide) (by decide) (by decide) (by decide)

/-- Claim C2: for a key generated from distinct positive primes p, q with a
sampled e meeting the rsa_make_e postcondition, and any message m with
0 <= m < n = p * q, decrypting an encryption of m and verifying a
signature of m both give back m. -/
theorem rsa_roundtrip (p q e m : Int)
    (hp : Prime p) (hq : Prime q) (hpq : p ≠ q) (hp0 : 0 < p) (hq0 : 0 < q)
    (he2 : 2 ≤ e) (helt : e < (p - 1) * (q - 1))
    (hge : math.gcd e ((p - 1) * (q - 1)) = some 1)
    (hm0 : 0 ≤ m) (hmn : m < p * q) :
    ((RSAKey.generate_keypair p q e).encrypt m).bind
        ((RSAKey.generate_keypair p q e).decrypt) = some m ∧
      ((RSAKey.generate_keypair p q e).sign m).bind
        ((RSAKey.generate_keypair p q e).verify) = some m := by
  have hφpos : (0 : Int) < (p - 1) * (q - 1) := lt_trans (by omega) helt
  have he0 : (0 : Int) < e := by omega
  have hgcd : Int.gcd e ((p - 1) * (q - 1)) = 1 := by
    have h := gcd_correct he0 hφpos
    rw [hge] at h
    exact_mod_cast (Option.some.injEq _ _ ▸ h).symm
  obtain ⟨hed, hd0⟩ := mi_good he0 helt hgcd
  set d := math.multiplicative_inverse e ((p - 1) * (q - 1)) with hddef
  have hn0 : (0 : Int) < p * q := mul_pos hp0 hq0
  have hne : p * q ≠ 0 := ne_of_gt hn0
  -- the exponent product in Nat form
  have hk0 : (0 : Int) ≤ e * d / ((p - 1) * (q - 1)) :=
    Int.ediv_nonneg (mul_nonneg (by omega) hd0) (le_of_lt hφpos)
  have hkeq : e * d = 1 + ((p - 1) * (q - 1)) * (e * d / ((p - 1) * (q - 1))) := by
    have h := Int.emod_add_ediv (e * d) ((p - 1) * (q - 1))
    rw [hed] at h
    omega
  have hX : m ^ (e.toNat * d.toNat) ≡ m [ZMOD p * q] := by
    obtain ⟨k, hk0k, hkeqk⟩ : ∃ k : Int, 0 ≤ k ∧ e * d = 1 + (p - 1) * (q - 1) * k :=
      ⟨e * d / ((p - 1) * (q - 1)), hk0, hkeq⟩
    have hExp : e.toNat * d.toNat = 1 + k.toNat * ((p - 1).toNat * (q - 1).toNat) := by
      have h1 : e.toNat * d.toNat = (e * d).toNat :=
        (toNat_mul_of_nonneg (by omega) hd0).symm
      have h2 : ((p - 1) * (q - 1)).toNat = (p - 1).toNat * (q - 1).toNat :=
        toNat_mul_of_nonneg (by omega) (by omega)
      have h3 : ((p - 1) * (q - 1) * k).toNat = ((p - 1) * (q - 1)).toNat * k.toNat :=
        toNat_mul_of_nonneg (le_of_lt hφpos) hk0k
      have h4 : (0 : Int) ≤ (p - 1) * (q - 1) * k := mul_nonneg (le_of_lt hφpos) hk0k
      rw [h1, hkeqk,
        show (1 + (p - 1) * (q - 1) * k).toNat = 1 + ((p - 1) * (q - 1) * k).toNat from
          by omega,
        h3, h2]
      ring
    rw [hExp]
    exact rsa_core p q hp hq hp0 hq0 hpq m k.toNat
  have round : ∀ A B : Nat, A * B = e.toNat * d.toNat →
      ((m ^ A % (p * q)) ^ B) % (p * q) = m := by
    intro A B hAB
    have h1 : (m ^ A % (p * q)) ≡ m ^ A [ZMOD p * q] :=
      Int.emod_emod_of_dvd _ dvd_rfl
    have h2 : (m ^ A % (p * q)) ^ B ≡ m ^ (A * B) [ZMOD p * q] := by
      rw [pow_mul]
      exact Int.ModEq.pow B h1
    have h3 : (m ^ A % (p * q)) ^ B ≡ m [ZMOD p * q] := h2.trans (hAB ▸ hX)
    unfold Int.ModEq at h3
    rw [h3, Int.emod_eq_of_lt hm0 hmn]
  constructor
  · show (math.modpow m e (p * q)).bind (fun c => math.modpow c d (p * q)) = some m
    rw [modpow_eval (by omega) hne]
    show math.modpow (m ^ e.toNat % (p * q)) d (p * q) = some m
    rw [modpow_eval hd0 hne]
    exact congrArg some (round e.toNat d.toNat rfl)
  · show (math.modpow m d (p * q)).bind (fun c => math.modpow c e (p * q)) = some m
    rw [modpow_eval hd0 hne]
    show math.modpow (m ^ d.toNat % (p * q)) e (p * q) = some m
    rw [modpow_eval (by omega) hne]
    exact congrArg some (round d.toNat e.toNat (Nat.mul_comm _ _))

/-- Witness for rsa_roundtrip at p = 5, q = 11, e = 3, m = 2. -/
theorem rsa_roundtrip_witness :
    ((RSAKey.generate_keypair 5 11 3).encrypt 2).bind
        ((RSAKey.generate_keypair 5 11 3).decrypt) = some 2 ∧
      ((RSAKey.generate_keypair 5 11 3).sign 2).bind
        ((RSAKey.generate_keypair 5 11 3).verify) = some 2 :=
  rsa_roundtrip 5 11 3 2 (by norm_num) (by norm_num) (by decide) (by decide)
    (by decide) (by decide) (by decide) (by decide) (by decide) (by decide)

/-! ### Miller-Rabin -/

lemma toNat_pow_mul (c : Nat) {t : Int} (ht : 0 ≤ t) :
    ((2 : Int) ^ c * t).toNat = 2 ^ c * t.toNat := by
  rw [toNat_mul_of_nonneg (by positivity) ht]
  congr 1
  rw [show ((2 : Int) ^ c) = ((2 ^ c : Nat) : Int) from by rw [Nat.cast_pow]; norm_num,
    Int.toNat_natCast]

lemma pow2_decomp_unique : ∀ s s2 : Nat, ∀ t u : Int, ¬ (2 : Int) ∣ t → ¬ (2 : Int) ∣ u →
    2 ^ s * t = 2 ^ s2 * u → s = s2 ∧ t = u := by
  intro s
  induction s with
  | zero =>
    intro s2 t u ht hu heq
    cases s2 with
    | zero =>
      simp only [pow_zero, one_mul] at heq
      exact ⟨rfl, heq⟩
    | succ sb =>
      exfalso
      apply ht
      refine ⟨2 ^ sb * u, ?_⟩
      simpa [pow_succ] using heq.trans (by ring)
  | succ sa ih =>
    intro s2 t u ht hu heq
    cases s2 with
    | zero =>
      exfalso
      apply hu
      refine ⟨2 ^ sa * t, ?_⟩
      simp only [pow_zero, one_mul] at heq
      rw [← heq]
      ring
    | succ sb =>
      have hcancel : 2 ^ sa * t = 2 ^ sb * u := by
        have h2 : (2 : Int) * (2 ^ sa * t) = 2 * (2 ^ sb * u) := by
          calc (2 : Int) * (2 ^ sa * t) = 2 ^ (sa + 1) * t := by ring
            _ = 2 ^ (sb + 1) * u := heq
            _ = 2 * (2 ^ sb * u) := by ring
        exact mul_left_cancel₀ (by norm_num) h2
      obtain ⟨hs, hts⟩ := ih sb t u ht hu hcancel
      exact ⟨by omega, hts⟩

lemma miller_loop_spec (b : Nat) (t n : Int) (ht : 0 ≤ t) (hn : n ≠ 0) :
    ∀ l : List Nat,
      (math.miller_loop b t n l = some true ↔
        ∃ c ∈ l, (b : Int) ^ (2 ^ c * t.toNat) % n = n - 1) ∧
      math.miller_loop b t n l ≠ none := by
  intro l
  induction l with
  | nil => simp [math.miller_loop]
  | cons c cs ih =>
    have hexp : (0 : Int) ≤ 2 ^ c * t := mul_nonneg (by positivity) ht
    have hm := modpow_eval (b := (b : Int)) hexp hn
    rw [toNat_pow_mul c ht] at hm
    by_cases hx : (b : Int) ^ (2 ^ c * t.toNat) % n = n - 1
    · constructor
      · simp only [math.miller_loop, hm, if_pos hx]
        simp only [true_iff]
        exact ⟨c, List.mem_cons_self c cs, hx⟩
      · simp [math.miller_loop, hm, if_pos hx]
    · constructor
      · simp only [math.miller_loop, hm, if_neg hx]
        rw [ih.1]
        constructor
        · rintro ⟨c', hc', hh⟩
          exact ⟨c', List.mem_cons_of_mem c hc', hh⟩
        · rintro ⟨c', hc', hh⟩
          rcases List.mem_cons.mp hc' with h | h
          · exact absurd (h ▸ hh) hx
          · exact ⟨c', h, hh⟩
      · simp only [math.miller_loop, hm, if_neg hx]
        exact ih.2

/-- Claim C6: for every odd n > 2 with n - 1 = 2^s * d (d odd) and every
base b, miller_test(n, b) returns true exactly when b^d is congruent to 1
mod n or b^(2^i * d) is congruent to n - 1 mod n for some 0 <= i <= s - 1;
it never fails, so in every other case it returns false, flagging b as a
definite composite witness. -/
theorem miller_test_iff (n : Int) (b : Nat) (t : Int) (s : Nat)
    (hodd : Odd n) (h2 : 2 < n) (hfac : n - 1 = 2 ^ s * t) (htodd : Odd t) :
    (math.miller_test n b = some true ↔
      ((b : Int) ^ t.toNat % n = 1 ∨
        ∃ i, i < s ∧ (b : Int) ^ (2 ^ i * t.toNat) % n = n - 1)) ∧
      math.miller_test n b ≠ none := by
  have hn1 : n - 1 ≠ 0 := by omega
  obtain ⟨m, j, hrun, hfact, hmo⟩ := factor_power_2_spec hn1
  have htodd' : ¬ (2 : Int) ∣ t := by
    rw [Int.odd_iff] at htodd
    omega
  obtain ⟨hsj, htm⟩ := pow2_decomp_unique s j t m htodd' hmo (hfac ▸ hfact)
  subst hsj
  subst htm
  have ht0 : 0 < t := by
    by_contra h
    push_neg at h
    have hp2 : (0 : Int) < 2 ^ s := pow_pos (by norm_num) s
    nlinarith [hfac]
  have hs1 : 1 ≤ s := by
    rcases Nat.eq_zero_or_pos s with h | h
    · exfalso
      subst h
      simp only [pow_zero, one_mul] at hfac
      rw [Int.odd_iff] at hodd htodd
      omega
    · exact h
  have hmt := modpow_eval (b := (b : Int)) (e := t) (n := n) (le_of_lt ht0) (by omega)
  by_cases hx : (b : Int) ^ t.toNat % n = 1 ∨ (b : Int) ^ t.toNat % n = n - 1
  · have hrun2 : math.miller_test n b = some true := by
      simp only [math.miller_test, hrun, hmt, if_pos hx]
    rw [hrun2]
    refine ⟨⟨fun _ => ?_, fun _ => rfl⟩, by simp⟩
    rcases hx with h | h
    · exact Or.inl h
    · refine Or.inr ⟨0, by omega, ?_⟩
      simpa using h
  · have hrun2 : math.miller_test n b
        = math.miller_loop b t n (List.range s) := by
      simp only [math.miller_test, hrun, hmt, if_neg hx]
    push_neg at hx
    obtain ⟨hloop, hnone⟩ := miller_loop_spec b t n (le_of_lt ht0) (by omega) (List.range s)
    rw [hrun2]
    refine ⟨?_, hnone⟩
    rw [hloop]
    constructor
    · rintro ⟨c, hc, hh⟩
      exact Or.inr ⟨c, List.mem_range.mp hc, hh⟩
    · rintro (h | ⟨i, hi, hh⟩)
      · exact absurd h hx.1
      · exact ⟨i, List.mem_range.mpr hi, hh⟩

/-- Witness for miller_test_iff at n = 9, b = 2, with 9 - 1 = 2^3 * 1. -/
theorem miller_test_iff_witness :
    (math.miller_test 9 2 = some true ↔
      ((2 : Int) ^ (1 : Int).toNat % 9 = 1 ∨
        ∃ i, i < 3 ∧ (2 : Int) ^ (2 ^ i * (1 : Int).toNat) % 9 = 9 - 1)) ∧
      math.miller_test 9 2 ≠ none :=
  miller_test_iff 9 2 1 3 (by decide) (by decide) (by decide) (by decide)

lemma miller_test_total {n : Int} (h2 : 2 < n) (b : Nat) :
    ∃ r, math.miller_test n b = some r := by
  obtain ⟨m, j, hrun, hfact, _⟩ := factor_power_2_spec (show n - 1 ≠ 0 by omega)
  have hm0 : 0 < m := by
    by_contra h
    push_neg at h
    have hp2 : (0 : Int) < 2 ^ j := pow_pos (by norm_num) j
    nlinarith
  have hmt := modpow_eval (b := (b : Int)) (e := m) (n := n) (le_of_lt hm0) (by omega)
  by_cases hx : (b : Int) ^ m.toNat % n = 1 ∨ (b : Int) ^ m.toNat % n = n - 1
  · exact ⟨true, by simp only [math.miller_test, hrun, hmt, if_pos hx]⟩
  · have hrun2 : math.miller_test n b = math.miller_loop b m n (List.range j) := by
      simp only [math.miller_test, hrun, hmt, if_neg hx]
    obtain ⟨_, hnone⟩ := miller_loop_spec b m n (le_of_lt hm0) (by omega) (List.range j)
    rw [hrun2]
    cases hr : math.miller_loop b m n (List.range j) with
    | none => exact absurd hr hnone
    | some r => exact ⟨r, rfl⟩

lemma miller_test_self {p : Int} (hodd : Odd p) (h2 : 2 < p) :
    math.miller_test p p.toNat = some false := by
  obtain ⟨m, j, hrun, hfact, hmo⟩ := factor_power_2_spec (show p - 1 ≠ 0 by omega)
  have hm0 : 0 < m := by
    by_contra h
    push_neg at h
    have hp2 : (0 : Int) < 2 ^ j := pow_pos (by norm_num) j
    nlinarith
  have hb : ((p.toNat : Nat) : Int) = p := Int.toNat_of_nonneg (by omega)
  have hmt := modpow_eval (b := ((p.toNat : Nat) : Int)) (e := m) (n := p)
    (le_of_lt hm0) (by omega)
  have hx0 : ((p.toNat : Nat) : Int) ^ m.toNat % p = 0 := by
    rw [hb]
    exact Int.emod_eq_zero_of_dvd (dvd_pow_self p (by omega))
  have hxne : ¬ (((p.toNat : Nat) : Int) ^ m.toNat % p = 1 ∨
      ((p.toNat : Nat) : Int) ^ m.toNat % p = p - 1) := by
    rw [hx0]
    push_neg
    constructor <;> omega
  have hrun2 : math.miller_test p p.toNat
      = math.miller_loop p.toNat m p (List.range j) := by
    simp only [math.miller_test, hrun, hmt, if_neg hxne]
  obtain ⟨hloop, hnone⟩ := miller_loop_spec p.toNat m p (le_of_lt hm0) (by omega)
    (List.range j)
  have hnohit : ¬ ∃ c ∈ List.range j, ((p.toNat : Nat) : Int) ^ (2 ^ c * m.toNat) % p
      = p - 1 := by
    rintro ⟨c, _, hh⟩
    have hz : ((p.toNat : Nat) : Int) ^ (2 ^ c * m.toNat) % p = 0 := by
      rw [hb]
      refine Int.emod_eq_zero_of_dvd (dvd_pow_self p ?_)
      have h1 : 1 ≤ 2 ^ c := Nat.one_le_two_pow
      have h2' : 1 ≤ m.toNat := by omega
      positivity
    omega
  rw [hrun2]
  cases hr : math.miller_loop p.toNat m p (List.range j) with
  | none => exact absurd hr hnone
  | some r =>
    cases r with
    | true => exact absurd (hloop.mp hr) hnohit
    | false => rfl

lemma ip_steps_false {p : Int} (hodd : Odd p) (h2 : 2 < p) (max_bases : Nat) :
    ∀ fuel b : Nat, b ≤ p.toNat → p.toNat < max_bases → max_bases ≤ fuel + b →
      math.ip_steps p max_bases fuel b = some false := by
  intro fuel
  induction fuel with
  | zero => intro b h1 h2' h3; omega
  | succ f ih =>
    intro b hbp hpm hfb
    have hblt : b < max_bases := by omega
    by_cases hb : b = p.toNat
    · subst hb
      simp only [math.ip_steps, if_pos hblt, miller_test_self hodd h2]
    · obtain ⟨r, hr⟩ := miller_test_total h2 b
      cases r with
      | false => simp only [math.ip_steps, if_pos hblt, hr]
      | true =>
        simp only [math.ip_steps, if_pos hblt, hr]
        exact ih (b + 1) (by omega) hpm (by omega)

/-- Claim C9: for every odd prime p with 2 < p < max_bases, is_prime
returns false: the base loop reaches base p itself (every earlier base
either already fails, ending the loop with false, or passes and the loop
continues), and p^d mod p = 0 fails the single-base witness test; e.g.
is_prime(3, 5) = false although 3 is prime. -/
theorem is_prime_false_on_small_prime (p : Int) (max_bases : Nat)
    (hodd : Odd p) (hp : Prime p) (h2 : 2 < p) (hlt : p < (max_bases : Int)) :
    math.is_prime p max_bases = some false := by
  have hnot1 : ¬ p < 2 := by omega
  have hnot2 : p ≠ 2 := by omega
  have hnot3 : ¬ p.tmod 2 = 0 := by
    have h := Int.odd_iff.mp hodd
    rw [Int.tmod_eq_emod (by omega) (by norm_num)]
    omega
  unfold math.is_prime
  rw [if_neg hnot1, if_neg hnot2, if_neg hnot3]
  exact ip_steps_false hodd h2 max_bases max_bases 2 (by omega) (by omega) (by omega)

/-- Witness for is_prime_false_on_small_prime at p = 3, max_bases = 5. -/
theorem is_prime_false_on_small_prime_witness : math.is_prime 3 5 = some false :=
  is_prime_false_on_small_prime 3 5 (by decide) (by norm_num) (by decide) (by decide)
